import Mathlib

/-!
Verification of the model-compiler core of a rigid-body physics simulator
(`src/user/user_model.cc`, `src/user/user_objects.cc`).  The definitions below
are shallow embeddings of the size computations, tree invariants, collision
pair handling, inertia checks and the compile driver; machine doubles are
modelled by exact rationals and C integers by unbounded integers.
-/

/-- Joint types, mirroring `mjtJoint`: free, ball, hinge, slide. -/
inductive JointType where
  | free
  | ball
  | hinge
  | slide
deriving DecidableEq

/-- Table `nPOS` from `user_model.cc` line 953: qpos slots per joint type. -/
def nPOS : JointType → Nat
  | .free => 7
  | .ball => 4
  | .hinge => 1
  | .slide => 1

/-- Table `nVEL` from `user_model.cc` line 954: dof slots per joint type. -/
def nVEL : JointType → Nat
  | .free => 6
  | .ball => 3
  | .hinge => 1
  | .slide => 1

/-- Return value of `mjCJoint::Compile` (`user_objects.cc` lines 1561-1567):
the number of dofs contributed by the joint. -/
def mjCJoint.CompileDofReturn : JointType → Nat
  | .free => 6
  | .ball => 3
  | .hinge => 1
  | .slide => 1

/-- A body of the flattened kinematic tree, as needed by the size and
tree invariants: parent index in the flattened list and the joint list
in declaration order. -/
structure CBody where
  parentid : Nat
  joints : List JointType
deriving DecidableEq

/-- Flattened joint list of the model: `MakeLists` walks bodies in order and
appends each body's joints (`user_model.cc` lines 627-644). -/
def modelJoints (bs : List CBody) : List JointType :=
  (bs.map (fun b => b.joints)).flatten

/-- Size `nq` as accumulated by `mjCModel::SetSizes` (`user_model.cc` 995-998). -/
def modelNq (bs : List CBody) : Nat :=
  (modelJoints bs).foldl (fun s t => s + nPOS t) 0

/-- Size `nv` as accumulated by `mjCModel::SetSizes` (`user_model.cc` 995-998). -/
def modelNv (bs : List CBody) : Nat :=
  (modelJoints bs).foldl (fun s t => s + nVEL t) 0

/-- Per-body `dofnum` accumulation in `mjCBody::Compile`
(`user_objects.cc` lines 1222-1227): sum of the joints' compile returns. -/
def bodyDofnum (joints : List JointType) : Nat :=
  joints.foldl (fun s t => s + mjCJoint.CompileDofReturn t) 0

/-- Excessive-dof check of `mjCBody::Compile` (`user_objects.cc` 1229-1232):
`true` means the compile error `more than 6 dofs in body` is thrown. -/
def bodyDofCheck (joints : List JointType) : Bool :=
  decide (bodyDofnum joints > 6)

/-- The comparison written at `user_model.cc` 2821,
`bodies.size()+flexes.size()>=65534`: `true` means the compile error
`number of bodies plus flexes must be less than 65534` is thrown.  The first
argument is the length of the model's flat `bodies` list at the moment the
check runs. -/
def bodyFlexCountCheck (nbodiesFlat nflexes : Nat) : Bool :=
  decide (nbodiesFlat + nflexes ≥ 65534)

/-- The check as `mjCModel::TryCompile` actually executes it: at line 2821
the flat `bodies` list holds only the world body, because the constructor
pushes only the world (`user_model.cc` 139), both driver reset paths leave
`[world]` (lines 2742-2748 and 2787-2789), and `MakeLists` (the only other
`bodies.push_back`, line 630) is first called later at line 2845.  So the
executed comparison is `1 + nflexes >= 65534`, whatever the number of
bodies in the spec tree. -/
def tryCompileBodyFlexCheck (nflexes : Nat) : Bool :=
  bodyFlexCountCheck 1 nflexes

/-- Free-joint count of a body, `user_model.cc` lines 1508-1511. -/
def cntfree (joints : List JointType) : Nat :=
  joints.foldl (fun c t => c + (if t = JointType.free then 1 else 0)) 0

/-- Error tags for the free-joint validity checks. -/
inductive FreeJointErr where
  | notAlone
  | notTopLevel
deriving DecidableEq

/-- Free-joint validity checks of `mjCModel::CopyTree`
(`user_model.cc` lines 1513-1519), performed per body: a free joint must be
alone and the body must be a direct child of the world. -/
def freeJointCheck (b : CBody) : Option FreeJointErr :=
  let c := cntfree b.joints
  if c > 1 ∨ (c = 1 ∧ b.joints.length > 1) then some .notAlone
  else if c ≠ 0 ∧ b.parentid ≠ 0 then some .notTopLevel
  else none

/-- Stored operand ids of a compiled pair or exclude entry. -/
structure PairIds where
  body1 : Nat
  body2 : Nat
deriving DecidableEq

/-- Operand ordering performed by `mjCPair::Compile` (`user_objects.cc`
3753-3761) and `mjCBodyPair::Compile` (`user_objects.cc` 3917-3927):
swap the two body ids if given in decreasing order. -/
def mjCPair.CompileIds (b1 b2 : Nat) : PairIds :=
  if b1 > b2 then ⟨b2, b1⟩ else ⟨b1, b2⟩

/-- Signature assignment of `mjCPair::Compile` / `mjCBodyPair::Compile`:
`signature = (body1<<16) + body2` on the ordered operands. -/
def signatureOf (p : PairIds) : Nat :=
  (p.body1 <<< 16) + p.body2

/-- A compiled pair/exclude entry as relevant to sorting: its id and its
32-bit signature. -/
structure CPair where
  id : Nat
  signature : Nat
deriving DecidableEq

/-- Stable sort of the pair/exclude lists by increasing signature,
`mjCModel::TryCompile` lines 2966-2967 (`std::stable_sort` with the
`comparePair` signature comparison). -/
def sortPairs (l : List CPair) : List CPair :=
  l.mergeSort (fun a b => decide (a.signature ≤ b.signature))

/-- Id reassignment after sorting, `reassignid` (`user_model.cc` 2671-2676):
each element's id becomes its position in the list. -/
def reassignid (l : List CPair) : List CPair :=
  l.enum.map (fun p => { p.2 with id := p.1 })

/-- The pair/exclude phase of `mjCModel::TryCompile` (lines 2965-2969):
stable sort by signature, then reassign ids. -/
def pairPhase (l : List CPair) : List CPair :=
  reassignid (sortPairs l)

/-- Dof slot assignment for one joint in `mjCModel::CopyTree`
(`user_model.cc` lines 1613-1631): for each of the joint's `nVEL` dofs,
append the body's current `lastdof` as the new dof's parent and make the
new dof the body's `lastdof`.  The first component is the running `lastdof`,
the second the global `dof_parentid` list (its length is the dof counter). -/
def pushDofs : Nat → Int → List Int → Int × List Int
  | 0, ld, dp => (ld, dp)
  | n + 1, ld, dp => pushDofs n (dp.length : Int) (dp ++ [ld])

/-- Dof assignment for all joints of one body, in declaration order. -/
def bodyDofs (joints : List JointType) (ld : Int) (dp : List Int) : Int × List Int :=
  joints.foldl (fun s t => pushDofs (nVEL t) s.1 s.2) (ld, dp)

/-- One body step of the `CopyTree` main loop: initialize the body's
`lastdof` from its parent (`user_model.cc` 1528-1529; the constructor value
is `-1`), then assign the dofs of its joints.  The state is the per-body
`lastdof` table (indexed by body id) and the `dof_parentid` list. -/
def treeDofsStep (st : List Int × List Int) (b : CBody) : List Int × List Int :=
  let ld0 := st.1.getD b.parentid (-1)
  let r := bodyDofs b.joints ld0 st.2
  (st.1 ++ [r.1], r.2)

/-- The `dof_parentid` array produced by `mjCModel::CopyTree` for a flattened
body list. -/
def dofParent (bs : List CBody) : List Int :=
  (bs.foldl treeDofsStep ([], [])).2

/-- Ancestor-chain walk of the `nM` loop in `mjCModel::CopyTree`
(`user_model.cc` 1804-1816): starting from dof `j`, count entries while
`j >= 0`, following `dof_parentid`.  The fuel argument bounds the walk; it is
sufficient because every parent entry is smaller than its index. -/
def chainCount (dp : List Int) : Nat → Int → Nat
  | 0, _ => 0
  | fuel + 1, j => if j < 0 then 0 else 1 + chainCount dp fuel (dp.getD j.toNat (-1))

/-- Size `nM` as computed by `mjCModel::CopyTree`: the sum over all dofs of
the length of their ancestor chains (self included). -/
def modelNM (bs : List CBody) : Nat :=
  let dp := dofParent bs
  (List.range dp.length).foldl (fun s i => s + chainCount dp (i + 1) (i : Int)) 0

/-- Size `nD` as computed by `mjCModel::CopyTree` line 1820: `2*nM - nv`. -/
def modelND (bs : List CBody) : Int :=
  2 * (modelNM bs : Int) - (modelNv bs : Int)

/-- Depth of a dof in the dof-parent tree: the number of strict ancestors,
following `dof_parentid` until the root marker `-1`. -/
def dofDepthFuel (dp : List Int) : Nat → Nat → Nat
  | 0, _ => 0
  | fuel + 1, i =>
    let p := dp.getD i (-1)
    if p < 0 then 0 else 1 + dofDepthFuel dp fuel p.toNat

/-- Depth of dof `i` in the dof-parent tree (fuel `i + 1` always suffices
since parent indices strictly decrease). -/
def dofDepth (dp : List Int) (i : Nat) : Nat :=
  dofDepthFuel dp (i + 1) i

/-- Generic table builder: process elements left to right, computing each
new entry from the table of earlier entries.  Used to embed the per-body
assignments of `weldid` and `body_rootid`. -/
def buildTable {α : Type} (g : List Nat → α → Nat) (bs : List α) : List Nat :=
  bs.foldl (fun acc b => acc ++ [g acc b]) []

/-- Whether a body has at least one joint, and its parent id: the data
consumed by the `weldid` and `rootid` assignments. -/
def weldStep (acc : List Nat) (b : CBody) : Nat :=
  if b.joints.isEmpty then acc.getD b.parentid 0 else acc.length

/-- The `weldid` table: `mjCBody::Compile` sets each child's weldid to the
child's own id if it has joints, else to the parent's weldid
(`user_objects.cc` 1124-1128); the world is preset to 0 (`user_model.cc` 136). -/
def weldids (bs : List CBody) : List Nat :=
  buildTable weldStep bs

/-- One entry of the `body_rootid` assignment of `mjCModel::CopyTree`
(`user_model.cc` 1521-1526): self if world or child of world, else the
parent's rootid. -/
def rootStep (acc : List Nat) (b : CBody) : Nat :=
  if acc.length = 0 ∨ b.parentid = 0 then acc.length else acc.getD b.parentid 0

/-- The `body_rootid` table produced by `mjCModel::CopyTree`. -/
def rootids (bs : List CBody) : List Nat :=
  buildTable rootStep bs

/-- Error tags of the mass/inertia correction step of `mjCBody::Compile`. -/
inductive InertiaErr where
  | negativeMassInertia
  | triangleViolation
deriving DecidableEq

/-- Mass and inertia correction of `mjCBody::Compile` for non-world bodies
(`user_objects.cc` lines 1174-1196), over exact rationals: clamp mass and the
three diagonal inertias to the model bounds, reject negative values, then
check the triangle inequality; on violation either average the three entries
(`balanceinertia`) or fail. -/
def massInertiaCompile (balanceinertia : Bool) (boundmass boundinertia : ℚ)
    (mass0 i0 i1 i2 : ℚ) : Except InertiaErr (ℚ × ℚ × ℚ × ℚ) :=
  let mass := max mass0 boundmass
  let a0 := max i0 boundinertia
  let a1 := max i1 boundinertia
  let a2 := max i2 boundinertia
  if mass < 0 ∨ a0 < 0 ∨ a1 < 0 ∨ a2 < 0 then
    .error .negativeMassInertia
  else if a0 + a1 < a2 ∨ a0 + a2 < a1 ∨ a1 + a2 < a0 then
    if balanceinertia then
      .ok (mass, (a0 + a1 + a2) / 3, (a0 + a1 + a2) / 3, (a0 + a1 + a2) / 3)
    else
      .error .triangleViolation
  else
    .ok (mass, a0, a1, a2)

/-- Base arena size of `mjCModel::TryCompile` (`user_model.cc` 3160-3170):
the legacy stack size `sizeof(mjtNum)*nstack` when set, else the
conservative heuristic `sizeof(mjtNum) * max(1000, 5*(njmax+neq+nv)^2 +
20*(nq+nv+nu+na+nbody+njnt+ngeom+nsite+neq+ntendon+nwrap))`. -/
def arenaBase (nstack njmax : Int)
    (neq nv nq nu na nbody njnt ngeom nsite ntendon nwrap : Nat)
    (szNum : Nat) : Int :=
  if nstack ≠ -1 then
    (szNum : Int) * nstack
  else
    (szNum : Int) * max 1000
      (5 * (njmax + neq + nv) * (njmax + neq + nv) +
       20 * ((nq : Int) + nv + nu + na + nbody + njnt + ngeom + nsite +
             neq + ntendon + nwrap))

/-- Additive arena term of `mjCModel::TryCompile` (`user_model.cc`
3164-3170): space for `nconmax` contacts, jacobian rows and efc-index
arrays, in terms of the C `sizeof` values. -/
def arenaAddBytes (nconmax njmax : Int) (nv : Nat)
    (szNum szInt szContact : Nat) : Int :=
  nconmax * szContact +
  njmax * (8 * szInt + 14 * szNum) +
  (nv : Int) * (3 * szInt) +
  njmax * (nv : Int) * (2 * szInt + 2 * szNum) +
  njmax * njmax * ((szInt : Int) + szNum)

/-- Arena size computation of `mjCModel::TryCompile` (`user_model.cc`
lines 3143-3176), over unbounded integers.  `memory` and `nstack` use the
sentinel `-1` for unset, as do the user limits `nconmax0` and `njmax0`;
`szNum`, `szInt` and `szContact` stand for the C `sizeof` values of
`mjtNum`, `int` and `mjContact`.  A user-specified `memory` is used as
given; otherwise the base plus the additive term is rounded up to the next
multiple of one megabyte. -/
def narena (memory nstack nconmax0 njmax0 : Int)
    (neq nv nq nu na nbody njnt ngeom nsite ntendon nwrap : Nat)
    (szNum szInt szContact : Nat) : Int :=
  if memory ≠ -1 then
    memory
  else
    let nconmax : Int := if nconmax0 = -1 then 100 else nconmax0
    let njmax : Int := if njmax0 = -1 then 500 else njmax0
    let total := arenaBase nstack njmax neq nv nq nu na nbody njnt ngeom nsite
        ntendon nwrap szNum + arenaAddBytes nconmax njmax nv szNum szInt szContact
    let mb : Int := 2 ^ 20
    let fullMb := total / mb
    let residualMb : Int := if total % mb ≠ 0 then 1 else 0
    mb * (fullMb + residualMb)

/-- A quaternion with components in `R`, stored `(w, x, y, z)`. -/
structure Quat (R : Type) where
  w : R
  x : R
  y : R
  z : R
deriving DecidableEq

/-- The characters accepted by the euler-sequence resolver. -/
def eulerChars : List Char := ['x', 'y', 'z', 'X', 'Y', 'Z']

/-- Main loop of the euler branch of `mjCAlternative::Set` (`user_objects.cc`
lines 221-245): per character build the elementary rotation
`(cos(e/2), sin-placed-on-axis)`, rejecting unknown characters, and
accumulate it into the quaternion, post-multiplying for lowercase (moving
axes) and pre-multiplying for uppercase (fixed axes).  Quaternion
multiplication (`mjuu_mulquat`, outside this source) and the half-angle
cosine and sine are abstracted as parameters `mul`, `co`, `si`. -/
def eulerLoop {A R : Type} [Zero R] (mul : Quat R → Quat R → Quat R)
    (co si : A → R) : Quat R → List (Char × A) → Option (Quat R)
  | q, [] => some q
  | q, (c, e) :: rest =>
    let sa := si e
    let qrot : Option (Quat R) :=
      if c = 'x' ∨ c = 'X' then some ⟨co e, sa, 0, 0⟩
      else if c = 'y' ∨ c = 'Y' then some ⟨co e, 0, sa, 0⟩
      else if c = 'z' ∨ c = 'Z' then some ⟨co e, 0, 0, sa⟩
      else none
    match qrot with
    | none => none
    | some r =>
      let q2 := if c = 'x' ∨ c = 'y' ∨ c = 'z' then mul q r else mul r q
      eulerLoop mul co si q2 rest

/-- The euler branch of `mjCAlternative::Set` (`user_objects.cc` 210-247):
optionally convert the angles from degrees (`conv`), initialize the
quaternion to identity, run the accumulation loop over the three sequence
characters, and normalize the result (`mjuu_normvec`, abstracted as `norm`).
`none` models the `euler sequence can only contain x, y, z, X, Y, Z` error. -/
def eulerSet {A R : Type} [Zero R] [One R] (mul : Quat R → Quat R → Quat R)
    (norm : Quat R → Quat R) (co si : A → R) (degree : Bool) (conv : A → A)
    (seq : List Char) (angles : List A) : Option (Quat R) :=
  let eu := if degree then angles.map conv else angles
  match eulerLoop mul co si ⟨1, 0, 0, 0⟩ (seq.zip eu) with
  | none => none
  | some q => some (norm q)

/-- Elementary rotation quaternion for one sequence character, as described
by the specification: the half-angle sine is placed on the axis named by the
character (case-insensitively). -/
def elemRot {A R : Type} [Zero R] (co si : A → R) (c : Char) (e : A) : Quat R :=
  if c = 'x' ∨ c = 'X' then ⟨co e, si e, 0, 0⟩
  else if c = 'y' ∨ c = 'Y' then ⟨co e, 0, si e, 0⟩
  else ⟨co e, 0, 0, si e⟩

/-- The euler resolver as worded by the specification: it fails exactly when
some sequence character is not one of `x y z X Y Z`, and otherwise composes
the elementary rotations in order, post-multiplying for lowercase characters
and pre-multiplying for uppercase ones, then normalizes. -/
def eulerSetRef {A R : Type} [Zero R] [One R] (mul : Quat R → Quat R → Quat R)
    (norm : Quat R → Quat R) (co si : A → R) (degree : Bool) (conv : A → A)
    (seq : List Char) (angles : List A) : Option (Quat R) :=
  let eu := if degree then angles.map conv else angles
  let steps := seq.zip eu
  if steps.all (fun p => decide (p.1 ∈ eulerChars)) then
    some (norm (steps.foldl
      (fun q p =>
        if p.1 ∈ (['x', 'y', 'z'] : List Char) then mul q (elemRot co si p.1 p.2)
        else mul (elemRot co si p.1 p.2) q)
      ⟨1, 0, 0, 0⟩))
  else none

/-- The process/thread-wide error and warning handler slots manipulated by
`mjCModel::Compile` through `_mjPRIVATE__set_tls_error_fn` and
`_mjPRIVATE__set_tls_warning_fn`; handler function pointers are abstracted
as natural numbers. -/
structure TLSHandlers where
  error_fn : Nat
  warning_fn : Nat
deriving DecidableEq

/-- The structured error record stored by the driver: either an `mjCError`
thrown by a compile phase (abstracted by a code), or a low-level engine
error converted by the `setjmp` trap (`engine error: ...`). -/
inductive CompileErrRec where
  | phase (ecode : Nat)
  | engine (msg : Nat)
deriving DecidableEq

/-- The `mjCModel` state visible to the driver: the flattened body pointer
list whose head is the world body (the world owns the whole spec tree), the
stored error, and the compiled flag.  Bodies are abstracted as handles. -/
structure MState where
  bodiesFlat : List Nat
  errInfo : Option CompileErrRec
  compiled : Bool
deriving DecidableEq

/-- The accessor `mjCModel::GetError` (`user_model.cc` 515-517). -/
def mjCModel.GetError (s : MState) : Option CompileErrRec :=
  s.errInfo

/-- The part of `mjCModel::Clear` (`user_model.cc` 263-345) relevant to the
driver: the flattened pointer lists are emptied, the error record and the
compiled flag are reset.  The body objects themselves (the spec tree hanging
off the world body) are not owned by these lists and are untouched. -/
def mjCModel.Clear (_s : MState) : MState :=
  { bodiesFlat := [], errInfo := none, compiled := false }

/-- Outcome of `mjCModel::TryCompile`, abstracted: success with the handle of
the finished runtime model (the internal `mjData` is already deleted on that
path), or an `mjCError` thrown part-way with whatever `mjModel`/`mjData`
were allocated at that point, or a low-level engine error delivered through
the installed error handler (`longjmp` into the `setjmp` trap), likewise
with partial allocations. -/
inductive TryOutcome where
  | ok (m : Nat)
  | thrown (ecode : Nat) (pm pd : Option Nat)
  | engine (msg : Nat) (pm pd : Option Nat)
deriving DecidableEq

/-- Result of one `mjCModel::Compile` call: the returned model (none on
failure), the final `mjCModel` state, the final handler slots, and the list
of runtime allocations still live (on success these are owned by the
caller). -/
structure CompileResult where
  ret : Option Nat
  state : MState
  tls : TLSHandlers
  live : List Nat
deriving DecidableEq

/-- The driver `mjCModel::Compile` (`user_model.cc` 2739-2805): save the
installed error/warning handlers and install the compiler's own
(`errH`/`warnH`), clear the error record, run `TryCompile` under the
`setjmp` trap; on an `mjCError` (or an engine error converted to one) delete
the partial `mjModel` and `mjData`, clear the flattened lists while keeping
the world body, store the error, restore both handlers and return null; on
success restore both handlers, set the compiled flag and return the model. -/
def mjCModel.Compile (s : MState) (tls0 : TLSHandlers) (errH warnH : Nat)
    (t : TryOutcome) : CompileResult :=
  let saveError := tls0.error_fn
  let saveWarning := tls0.warning_fn
  let _tlsInstalled : TLSHandlers := ⟨errH, warnH⟩
  let s1 : MState := { s with errInfo := none }
  let onFail (e : CompileErrRec) : CompileResult :=
    let world := s1.bodiesFlat.headD 0
    let s2 := mjCModel.Clear s1
    let s3 : MState := { s2 with bodiesFlat := [world], errInfo := some e }
    ⟨none, s3, ⟨saveError, saveWarning⟩, []⟩
  match t with
  | .ok m =>
    ⟨some m, { s1 with compiled := true }, ⟨saveError, saveWarning⟩, [m]⟩
  | .thrown ecode _pm _pd => onFail (.phase ecode)
  | .engine msg _pm _pd => onFail (.engine msg)

theorem foldl_add_map {α : Type} (f : α → Nat) :
    ∀ (l : List α) (a : Nat), l.foldl (fun s t => s + f t) a = a + (l.map f).sum
  | [], a => by simp
  | x :: l, a => by
    simp [List.foldl_cons, foldl_add_map f l (a + f x), Nat.add_assoc]

theorem cntfree_eq_countP (js : List JointType) :
    cntfree js = js.countP (fun t => decide (t = JointType.free)) := by
  induction js with
  | nil => rfl
  | cons x l ih =>
    by_cases hx : x = JointType.free
    · subst hx
      simp [cntfree, List.countP_cons] at ih ⊢
      rw [show (fun c t => c + (if t = JointType.free then 1 else 0)) =
            (fun s t => s + (if t = JointType.free then 1 else 0)) from rfl] at ih ⊢
      rw [foldl_add_map _ l 1, foldl_add_map _ l 0] at *
      omega
    · simp [cntfree, List.countP_cons, hx] at ih ⊢
      exact ih

/-- C10: compile fails with an error whenever a body's joints together
contribute more than 6 degrees of freedom (free counting 6, ball 3, hinge
and slide 1 each), so in every successfully compiled model every body has
`dofnum <= 6`. -/
theorem C10_body_dof_limit (js : List JointType) :
    bodyDofnum js = (js.map mjCJoint.CompileDofReturn).sum ∧
    mjCJoint.CompileDofReturn .free = 6 ∧
    mjCJoint.CompileDofReturn .ball = 3 ∧
    mjCJoint.CompileDofReturn .hinge = 1 ∧
    mjCJoint.CompileDofReturn .slide = 1 ∧
    (bodyDofCheck js = false ↔ bodyDofnum js ≤ 6) := by
  refine ⟨?_, rfl, rfl, rfl, rfl, ?_⟩
  · simpa [bodyDofnum] using foldl_add_map mjCJoint.CompileDofReturn js 0
  · simp [bodyDofCheck]

/-- C9: the claim says compile fails whenever the number of bodies plus
flexes is 65534 or more, so that body ids fit in 16 bits and the
`(body1<<16)|body2` packing is safe; the code contradicts its own error
message: when `TryCompile` runs the check, the flat bodies list holds only
the world, so for a spec with 70000 bodies and no flexes the executed check
raises no error (first conjunct) although the comparison the message
describes would (second conjunct), and such a model assigns body ids such
as 65537 that exceed 16 bits (third conjunct) and break the or-packing of
the signature (fourth conjunct). -/
theorem C9_check_misses_bodies :
    tryCompileBodyFlexCheck 0 = false ∧
    bodyFlexCountCheck 70000 0 = true ∧
    ¬(65537 < 2 ^ 16) ∧
    signatureOf ⟨1, 65537⟩ ≠ ((1 <<< 16) ||| 65537) := by
  refine ⟨by decide, by decide, by decide, ?_⟩
  decide

/-- C4: the free-joint checks fail exactly when a body carries a free joint
together with any other joint, or a body with a free joint has a parent
other than the world; consequently in a successfully compiled model a free
joint is its body's only joint and the body is a direct child of the world. -/
theorem C4_free_joint_rules (b : CBody) :
    (freeJointCheck b = none ↔
      ¬((JointType.free ∈ b.joints ∧ 1 < b.joints.length) ∨
        (JointType.free ∈ b.joints ∧ b.parentid ≠ 0))) ∧
    (freeJointCheck b = none → JointType.free ∈ b.joints →
      b.joints = [JointType.free] ∧ b.parentid = 0) := by
  have hc : cntfree b.joints = b.joints.countP (fun t => decide (t = JointType.free)) :=
    cntfree_eq_countP b.joints
  have hmem : JointType.free ∈ b.joints ↔ 0 < cntfree b.joints := by
    rw [hc, List.countP_pos_iff]
    constructor
    · exact fun h => ⟨_, h, by simp⟩
    · rintro ⟨a, ha, hd⟩
      simp at hd
      rwa [hd] at ha
  have hle : cntfree b.joints ≤ b.joints.length := by
    rw [hc]; exact List.countP_le_length _
  have key : freeJointCheck b = none ↔
      ¬((cntfree b.joints > 1 ∨ (cntfree b.joints = 1 ∧ 1 < b.joints.length)) ∨
        (cntfree b.joints ≠ 0 ∧ b.parentid ≠ 0)) := by
    unfold freeJointCheck
    by_cases h1 : cntfree b.joints > 1 ∨ (cntfree b.joints = 1 ∧ 1 < b.joints.length)
    · simp [h1]
    · by_cases h2 : cntfree b.joints ≠ 0 ∧ b.parentid ≠ 0
      · simp [h1, h2]
      · simp [h1, h2]
  constructor
  · rw [key, hmem]
    omega
  · intro hnone hfree
    rw [key] at hnone
    have hf : 0 < cntfree b.joints := hmem.mp hfree
    have hpos : 0 < b.joints.length := List.length_pos.mpr (List.ne_nil_of_mem hfree)
    have hLp : b.joints.length = 1 ∧ b.parentid = 0 := by omega
    obtain ⟨a, hall⟩ := List.length_eq_one.mp hLp.1
    rw [hall] at hfree
    simp at hfree
    rw [← hfree] at hall
    exact ⟨hall, hLp.2⟩

/-- Behaviour of the mass/inertia correction when the bounded diagonal
inertia violates the triangle inequality: balancing replaces all three
entries by their mean, otherwise compilation fails. -/
theorem massInertia_triangle_general (bm bi m i0 i1 i2 : ℚ)
    (hbm : 0 ≤ bm) (hbi : 0 ≤ bi)
    (hviol : max i0 bi + max i1 bi < max i2 bi ∨ max i0 bi + max i2 bi < max i1 bi ∨
             max i1 bi + max i2 bi < max i0 bi) :
    massInertiaCompile true bm bi m i0 i1 i2 =
      .ok (max m bm, (max i0 bi + max i1 bi + max i2 bi) / 3,
           (max i0 bi + max i1 bi + max i2 bi) / 3,
           (max i0 bi + max i1 bi + max i2 bi) / 3) ∧
    massInertiaCompile false bm bi m i0 i1 i2 = .error .triangleViolation := by
  have hnneg : ¬(max m bm < 0 ∨ max i0 bi < 0 ∨ max i1 bi < 0 ∨ max i2 bi < 0) := by
    push_neg
    refine ⟨le_trans hbm (le_max_right m bm), le_trans hbi (le_max_right i0 bi),
      le_trans hbi (le_max_right i1 bi), le_trans hbi (le_max_right i2 bi)⟩
  constructor <;>
  · simp only [massInertiaCompile]
    rw [if_neg hnneg, if_pos hviol]
    simp

/-- C5: after mass/inertia bounding, a triangle-inequality violation of the
diagonal inertia is either repaired (all three entries replaced by their
common mean) when `balanceinertia` is enabled, or rejected when it is
disabled; in particular inertia `(1, 1, 3)` fails without balancing and
compiles to `(5/3, 5/3, 5/3)` with it. -/
theorem C5_inertia_triangle (bm bi m i0 i1 i2 : ℚ) (hbm : 0 ≤ bm) (hbi : 0 ≤ bi)
    (hviol : max i0 bi + max i1 bi < max i2 bi ∨ max i0 bi + max i2 bi < max i1 bi ∨
             max i1 bi + max i2 bi < max i0 bi) :
    massInertiaCompile true bm bi m i0 i1 i2 =
      .ok (max m bm, (max i0 bi + max i1 bi + max i2 bi) / 3,
           (max i0 bi + max i1 bi + max i2 bi) / 3,
           (max i0 bi + max i1 bi + max i2 bi) / 3) ∧
    massInertiaCompile false bm bi m i0 i1 i2 = .error .triangleViolation ∧
    massInertiaCompile false 0 0 1 1 1 3 = .error .triangleViolation ∧
    massInertiaCompile true 0 0 1 1 1 3 = .ok (1, 5/3, 5/3, 5/3) := by
  have h1 : max (1 : ℚ) 0 = 1 := max_eq_left (by norm_num)
  have h3 : max (3 : ℚ) 0 = 3 := max_eq_left (by norm_num)
  have hcviol : max (1 : ℚ) 0 + max 1 0 < max 3 0 ∨ max (1 : ℚ) 0 + max 3 0 < max 1 0 ∨
      max (1 : ℚ) 0 + max 3 0 < max 1 0 := by
    rw [h1, h3]
    norm_num
  have hconc := massInertia_triangle_general 0 0 1 1 1 3 le_rfl le_rfl hcviol
  have hgen := massInertia_triangle_general bm bi m i0 i1 i2 hbm hbi hviol
  refine ⟨hgen.1, hgen.2, hconc.2, ?_⟩
  rw [hconc.1, h1, h3]
  norm_num

theorem C5_inertia_triangle_witness :
    massInertiaCompile false 0 0 1 1 1 3 = .error .triangleViolation ∧
    massInertiaCompile true 0 0 1 1 1 3 = .ok (1, 5/3, 5/3, 5/3) := by
  have h1 : max (1 : ℚ) 0 = 1 := max_eq_left (by norm_num)
  have h3 : max (3 : ℚ) 0 = 3 := max_eq_left (by norm_num)
  have hcviol : max (1 : ℚ) 0 + max 1 0 < max 3 0 ∨ max (1 : ℚ) 0 + max 3 0 < max 1 0 ∨
      max (1 : ℚ) 0 + max 3 0 < max 1 0 := by
    rw [h1, h3]
    norm_num
  exact ⟨(C5_inertia_triangle 0 0 1 1 1 3 le_rfl le_rfl hcviol).2.2.1,
    (C5_inertia_triangle 0 0 1 1 1 3 le_rfl le_rfl hcviol).2.2.2⟩

/-- C2: the compile driver returns no model on failure, releases every
partially allocated runtime structure, stores the structured error so that
`GetError` retrieves it, keeps the world body (which owns the spec tree),
and restores the saved error and warning handlers on both the success and
the failure paths; an engine error trapped by `setjmp` follows the same
failure path with an engine-tagged error record. -/
theorem C2_compile_driver (s : MState) (tls0 : TLSHandlers) (errH warnH : Nat)
    (t : TryOutcome) :
    ((mjCModel.Compile s tls0 errH warnH t).tls = tls0) ∧
    (∀ e pm pd, t = .thrown e pm pd →
      (mjCModel.Compile s tls0 errH warnH t).ret = none ∧
      (mjCModel.Compile s tls0 errH warnH t).live = [] ∧
      mjCModel.GetError (mjCModel.Compile s tls0 errH warnH t).state =
        some (.phase e) ∧
      (mjCModel.Compile s tls0 errH warnH t).state.bodiesFlat =
        [s.bodiesFlat.headD 0] ∧
      (mjCModel.Compile s tls0 errH warnH t).state.compiled = false) ∧
    (∀ msg pm pd, t = .engine msg pm pd →
      (mjCModel.Compile s tls0 errH warnH t).ret = none ∧
      (mjCModel.Compile s tls0 errH warnH t).live = [] ∧
      mjCModel.GetError (mjCModel.Compile s tls0 errH warnH t).state =
        some (.engine msg) ∧
      (mjCModel.Compile s tls0 errH warnH t).state.bodiesFlat =
        [s.bodiesFlat.headD 0]) ∧
    (∀ m, t = .ok m →
      (mjCModel.Compile s tls0 errH warnH t).ret = some m ∧
      (mjCModel.Compile s tls0 errH warnH t).state.compiled = true) := by
  refine ⟨?_, ?_, ?_, ?_⟩
  · cases t <;> rfl
  · rintro e pm pd rfl
    exact ⟨rfl, rfl, rfl, rfl, rfl⟩
  · rintro msg pm pd rfl
    exact ⟨rfl, rfl, rfl, rfl⟩
  · rintro m rfl
    exact ⟨rfl, rfl⟩

theorem C2_compile_driver_witness :
    (mjCModel.Compile ⟨[7, 8], none, false⟩ ⟨3, 4⟩ 1 2 (.thrown 5 (some 9) none)).ret =
      none ∧
    (mjCModel.Compile ⟨[7, 8], none, false⟩ ⟨3, 4⟩ 1 2 (.thrown 5 (some 9) none)).live =
      [] ∧
    mjCModel.GetError
      (mjCModel.Compile ⟨[7, 8], none, false⟩ ⟨3, 4⟩ 1 2
        (.thrown 5 (some 9) none)).state = some (.phase 5) ∧
    (mjCModel.Compile ⟨[7, 8], none, false⟩ ⟨3, 4⟩ 1 2
        (.thrown 5 (some 9) none)).state.bodiesFlat = [7] ∧
    (mjCModel.Compile ⟨[7, 8], none, false⟩ ⟨3, 4⟩ 1 2
        (.thrown 5 (some 9) none)).state.compiled = false :=
  (C2_compile_driver ⟨[7, 8], none, false⟩ ⟨3, 4⟩ 1 2
      (.thrown 5 (some 9) none)).2.1 5 (some 9) none rfl

theorem shiftLeft_add_eq_or (a b : Nat) (h : b < 2 ^ 16) :
    (a <<< 16) + b = (a <<< 16) ||| b := by
  apply Nat.eq_of_testBit_eq
  intro i
  rw [Nat.testBit_lor, Nat.shiftLeft_eq]
  rcases Nat.lt_or_ge i 16 with hi | hi
  · have h16 : (2 : Nat) ^ 16 = 2 ^ i * 2 ^ (16 - i) := by
      rw [← pow_add]
      congr 1
      omega
    have e0 : a * 2 ^ 16 + b = b + 2 ^ (16 - i) * a * 2 ^ i := by
      rw [h16]; ring
    have e0b : a * 2 ^ 16 = 0 + 2 ^ (16 - i) * a * 2 ^ i := by
      rw [h16]; ring
    rw [Nat.testBit_to_div_mod, Nat.testBit_to_div_mod, Nat.testBit_to_div_mod,
      e0, e0b, Nat.add_mul_div_right _ _ (Nat.pos_pow_of_pos i (by norm_num)),
      Nat.add_mul_div_right _ _ (Nat.pos_pow_of_pos i (by norm_num))]
    have hev : 2 ^ (16 - i) * a % 2 = 0 := by
      have hsp : (2 : Nat) ^ (16 - i) = 2 * 2 ^ (16 - i - 1) := by
        rw [← pow_succ']
        congr 1
        omega
      rw [hsp, Nat.mul_assoc]
      exact Nat.mul_mod_right 2 _
    rcases Nat.mod_two_eq_zero_or_one (b / 2 ^ i) with h2 | h2 <;>
      simp [Nat.add_mod, Nat.zero_div, hev, h2]
  · have hsplit : (2 : Nat) ^ i = 2 ^ 16 * 2 ^ (i - 16) := by
      rw [← pow_add]
      congr 1
      omega
    have e1 : (a * 2 ^ 16 + b) / 2 ^ i = a / 2 ^ (i - 16) := by
      rw [hsplit, ← Nat.div_div_eq_div_mul, Nat.mul_comm a,
        Nat.mul_add_div (Nat.pos_pow_of_pos 16 (by norm_num)),
        Nat.div_eq_of_lt h, Nat.add_zero]
    have e2 : a * 2 ^ 16 / 2 ^ i = a / 2 ^ (i - 16) := by
      rw [hsplit, ← Nat.div_div_eq_div_mul, Nat.mul_comm a,
        Nat.mul_div_cancel_left _ (Nat.pos_pow_of_pos 16 (by norm_num))]
    have hb : b.testBit i = false := by
      apply Nat.testBit_lt_two_pow
      exact lt_of_lt_of_le h (Nat.pow_le_pow_right (by norm_num) hi)
    rw [Nat.testBit_to_div_mod, Nat.testBit_to_div_mod, e1, e2, hb]
    simp

theorem pairLe_trans (a b c : CPair) (hab : decide (a.signature ≤ b.signature) = true)
    (hbc : decide (b.signature ≤ c.signature) = true) :
    decide (a.signature ≤ c.signature) = true := by
  simp only [decide_eq_true_eq] at *
  omega

theorem pairLe_total (a b : CPair) :
    (decide (a.signature ≤ b.signature) || decide (b.signature ≤ a.signature)) = true := by
  simp only [Bool.or_eq_true, decide_eq_true_eq]
  omega

theorem reassignid_map_sig (l : List CPair) :
    (reassignid l).map (fun p => p.signature) = l.map (fun p => p.signature) := by
  simp only [reassignid, List.map_map]
  have : ((fun p : CPair => p.signature) ∘ fun p : Nat × CPair => { p.2 with id := p.1 }) =
      (fun p : Nat × CPair => p.2.signature) := rfl
  rw [this]
  have h2 : (fun p : Nat × CPair => p.2.signature) =
      ((fun p : CPair => p.signature) ∘ Prod.snd) := rfl
  rw [h2, ← List.map_map, List.enum_map_snd]

/-- C3 counterexample: the claim as frozen asserts the stored signature of
every compiled pair equals `(body1<<16)|body2`; for a pair whose geoms sit
on bodies 1 and 65537 (reachable because the body-count check never sees
the bodies, `user_model.cc` 2821 versus 2845) the operands are ordered but
the additive signature `(1<<16)+65537 = 131073` differs from the or-packing
`(1<<16)|65537 = 65537`. -/
theorem C3_pair_sort_counterexample :
    (mjCPair.CompileIds 1 65537).body1 ≤ (mjCPair.CompileIds 1 65537).body2 ∧
    signatureOf (mjCPair.CompileIds 1 65537) ≠
      (((mjCPair.CompileIds 1 65537).body1 <<< 16) |||
       (mjCPair.CompileIds 1 65537).body2) := by
  refine ⟨by decide, ?_⟩
  decide

/-- C3 (amended): pair/exclude operands are stored in increasing body
order, the signature is the additive packing `(body1<<16)+body2` — which
coincides with the or-packing `(body1<<16)|body2` exactly when `body2`
fits in 16 bits, a bound the compiler does not enforce — and the
pair/exclude lists are stably sorted by increasing signature with ids
reassigned to positions. -/
theorem C3_pair_sort (b1 b2 : Nat) (l : List CPair) (a b : CPair) :
    (mjCPair.CompileIds b1 b2).body1 ≤ (mjCPair.CompileIds b1 b2).body2 ∧
    signatureOf (mjCPair.CompileIds b1 b2) =
      ((mjCPair.CompileIds b1 b2).body1 <<< 16) +
        (mjCPair.CompileIds b1 b2).body2 ∧
    (∀ x y : Nat, y < 2 ^ 16 → signatureOf ⟨x, y⟩ = (x <<< 16) ||| y) ∧
    (pairPhase l).Pairwise (fun p q => p.signature ≤ q.signature) ∧
    (sortPairs l).Perm l ∧
    ([a, b].Sublist l → a.signature ≤ b.signature → [a, b].Sublist (sortPairs l)) ∧
    (pairPhase l).map (fun p => p.signature) =
      (sortPairs l).map (fun p => p.signature) ∧
    ∀ i, (h : i < (pairPhase l).length) → ((pairPhase l).get ⟨i, h⟩).id = i := by
  refine ⟨?_, ?_, fun x y hy => shiftLeft_add_eq_or x y hy, ?_,
    List.mergeSort_perm l _, ?_, reassignid_map_sig (sortPairs l), ?_⟩
  · unfold mjCPair.CompileIds
    split <;> simp <;> omega
  · unfold mjCPair.CompileIds signatureOf
    split <;> rfl
  · have hsorted := List.sorted_mergeSort pairLe_trans pairLe_total l
    have h1 : List.Pairwise (fun x y : Nat => x ≤ y)
        ((sortPairs l).map (fun p => p.signature)) := by
      rw [List.pairwise_map]
      exact hsorted.imp (fun h => by simpa using h)
    have h2 : List.Pairwise (fun x y : Nat => x ≤ y)
        ((pairPhase l).map (fun p => p.signature)) := by
      rw [pairPhase, reassignid_map_sig]
      exact h1
    exact List.pairwise_map.mp h2
  · intro hsub hle
    exact List.pair_sublist_mergeSort pairLe_trans pairLe_total (by simpa using hle) hsub
  · intro i h
    simp [pairPhase, reassignid, List.get_eq_getElem, List.getElem_enum]

theorem roundUpMB_facts (t : Int) :
    t ≤ 2 ^ 20 * (t / 2 ^ 20 + if t % 2 ^ 20 ≠ 0 then 1 else 0) ∧
    2 ^ 20 * (t / 2 ^ 20 + if t % 2 ^ 20 ≠ 0 then 1 else 0) < t + 2 ^ 20 ∧
    (2 ^ 20 : Int) ∣ 2 ^ 20 * (t / 2 ^ 20 + if t % 2 ^ 20 ≠ 0 then 1 else 0) := by
  refine ⟨?_, ?_, dvd_mul_right _ _⟩ <;> by_cases hz : t % 2 ^ 20 = 0 <;>
    simp [hz] <;> omega

/-- C6: the arena size is the user-supplied byte count when explicit;
otherwise the base is the legacy stack size `sizeof(num)*nstack` when set
and the conservative heuristic otherwise, the additive term for contacts,
jacobians and efc-index arrays is added, and the result is rounded up to
the next megabyte (the least multiple of 2^20 at or above base plus
additive term, with the user limits defaulting to 100 contacts and 500
constraint rows when unset). -/
theorem C6_arena_size (memory nstack nconmax0 njmax0 : Int)
    (neq nv nq nu na nbody njnt ngeom nsite ntendon nwrap : Nat)
    (szNum szInt szContact : Nat) :
    (memory ≠ -1 →
      narena memory nstack nconmax0 njmax0 neq nv nq nu na nbody njnt ngeom nsite
        ntendon nwrap szNum szInt szContact = memory) ∧
    (memory = -1 →
      arenaBase nstack (if njmax0 = -1 then 500 else njmax0) neq nv nq nu na nbody
          njnt ngeom nsite ntendon nwrap szNum +
        arenaAddBytes (if nconmax0 = -1 then 100 else nconmax0)
          (if njmax0 = -1 then 500 else njmax0) nv szNum szInt szContact ≤
        narena memory nstack nconmax0 njmax0 neq nv nq nu na nbody njnt ngeom nsite
          ntendon nwrap szNum szInt szContact ∧
      narena memory nstack nconmax0 njmax0 neq nv nq nu na nbody njnt ngeom nsite
          ntendon nwrap szNum szInt szContact <
        arenaBase nstack (if njmax0 = -1 then 500 else njmax0) neq nv nq nu na nbody
          njnt ngeom nsite ntendon nwrap szNum +
        arenaAddBytes (if nconmax0 = -1 then 100 else nconmax0)
          (if njmax0 = -1 then 500 else njmax0) nv szNum szInt szContact + 2 ^ 20 ∧
      (2 ^ 20 : Int) ∣
        narena memory nstack nconmax0 njmax0 neq nv nq nu na nbody njnt ngeom nsite
          ntendon nwrap szNum szInt szContact) ∧
    (nstack ≠ -1 →
      arenaBase nstack (if njmax0 = -1 then 500 else njmax0) neq nv nq nu na nbody
        njnt ngeom nsite ntendon nwrap szNum = (szNum : Int) * nstack) ∧
    (nstack = -1 →
      arenaBase nstack (if njmax0 = -1 then 500 else njmax0) neq nv nq nu na nbody
        njnt ngeom nsite ntendon nwrap szNum =
      (szNum : Int) * max 1000
        (5 * ((if njmax0 = -1 then 500 else njmax0) + neq + nv) *
           ((if njmax0 = -1 then 500 else njmax0) + neq + nv) +
         20 * ((nq : Int) + nv + nu + na + nbody + njnt + ngeom + nsite +
               neq + ntendon + nwrap))) := by
  refine ⟨fun h => ?_, fun h => ?_, fun h => ?_, fun h => ?_⟩
  · simp only [narena, if_pos h]
  · subst h
    simp only [narena, ne_eq, neg_neg, not_true_eq_false, if_false, ite_false,
      reduceIte, not_not]
    exact roundUpMB_facts _
  · simp only [arenaBase, if_pos h]
  · subst h
    simp only [arenaBase, ne_eq, not_true_eq_false, if_false, reduceIte, not_not]

theorem eulerLoop_eq {A R : Type} [Zero R] (mul : Quat R → Quat R → Quat R)
    (co si : A → R) (steps : List (Char × A)) (q : Quat R) :
    eulerLoop mul co si q steps =
      if steps.all (fun p => decide (p.1 ∈ eulerChars)) then
        some (steps.foldl (fun qq p =>
          if p.1 ∈ (['x', 'y', 'z'] : List Char) then mul qq (elemRot co si p.1 p.2)
          else mul (elemRot co si p.1 p.2) qq) q)
      else none := by
  induction steps generalizing q with
  | nil => simp [eulerLoop]
  | cons p rest ih =>
    obtain ⟨c, e⟩ := p
    by_cases hx : c = 'x' ∨ c = 'X'
    · rcases hx with rfl | rfl <;>
      · simp only [eulerLoop, elemRot, eulerChars, List.all_cons, List.foldl_cons,
          List.mem_cons, List.not_mem_nil, Char.reduceEq, true_or, or_true, false_or,
          or_false, decide_True, decide_False, Bool.true_and, Bool.false_and,
          ite_true, ite_false]
        rw [ih]
        simp only [elemRot, eulerChars, List.mem_cons, List.not_mem_nil, or_false]
    · by_cases hy : c = 'y' ∨ c = 'Y'
      · rcases hy with rfl | rfl <;>
        · simp only [eulerLoop, elemRot, eulerChars, List.all_cons, List.foldl_cons,
            List.mem_cons, List.not_mem_nil, Char.reduceEq, true_or, or_true, false_or,
            or_false, decide_True, decide_False, Bool.true_and, Bool.false_and,
            ite_true, ite_false]
          rw [ih]
          simp only [elemRot, eulerChars, List.mem_cons, List.not_mem_nil, or_false]
      · by_cases hz : c = 'z' ∨ c = 'Z'
        · rcases hz with rfl | rfl <;>
          · simp only [eulerLoop, elemRot, eulerChars, List.all_cons, List.foldl_cons,
              List.mem_cons, List.not_mem_nil, Char.reduceEq, true_or, or_true, false_or,
              or_false, decide_True, decide_False, Bool.true_and, Bool.false_and,
              ite_true, ite_false]
            rw [ih]
            simp only [elemRot, eulerChars, List.mem_cons, List.not_mem_nil, or_false]
        · have hnm : ¬(c ∈ eulerChars) := by
            simp only [eulerChars, List.mem_cons, List.not_mem_nil, or_false]
            push_neg at hx hy hz
            rintro (h | h | h | h | h | h)
            · exact hx.1 h
            · exact hy.1 h
            · exact hz.1 h
            · exact hx.2 h
            · exact hy.2 h
            · exact hz.2 h
          simp only [eulerLoop, hx, hy, hz, ite_false, if_neg hx, if_neg hy, if_neg hz,
            List.all_cons]
          rw [if_neg]
          simp only [Bool.and_eq_true, decide_eq_true_eq]
          rintro ⟨h1, h2⟩
          exact hnm h1

theorem eulerSet_eq_ref {A R : Type} [Zero R] [One R]
    (mul : Quat R → Quat R → Quat R) (norm : Quat R → Quat R) (co si : A → R)
    (degree : Bool) (conv : A → A) (seq : List Char) (angles : List A) :
    eulerSet mul norm co si degree conv seq angles =
      eulerSetRef mul norm co si degree conv seq angles := by
  simp only [eulerSet, eulerSetRef]
  rw [eulerLoop_eq]
  by_cases h : ((seq.zip (if degree then angles.map conv else angles)).all
      (fun p => decide (p.1 ∈ eulerChars))) = true
  · rw [if_pos h, if_pos h]
  · rw [if_neg h, if_neg h]

/-- C8: the euler resolver processes the three angles in order, composing
each elementary rotation by post-multiplication for a lowercase sequence
character (moving axes) and by pre-multiplication for an uppercase one
(fixed axes), and it fails with the euler-sequence error exactly when some
character is not one of `x y z X Y Z`. -/
theorem C8_euler_resolver {A R : Type} [Zero R] [One R]
    (mul : Quat R → Quat R → Quat R) (norm : Quat R → Quat R) (co si : A → R)
    (degree : Bool) (conv : A → A) (c0 c1 c2 : Char) (e0 e1 e2 : A) :
    eulerSet mul norm co si degree conv [c0, c1, c2] [e0, e1, e2] =
      eulerSetRef mul norm co si degree conv [c0, c1, c2] [e0, e1, e2] ∧
    (eulerSet mul norm co si degree conv [c0, c1, c2] [e0, e1, e2] = none ↔
      ¬(c0 ∈ eulerChars ∧ c1 ∈ eulerChars ∧ c2 ∈ eulerChars)) := by
  refine ⟨eulerSet_eq_ref mul norm co si degree conv _ _, ?_⟩
  rw [eulerSet_eq_ref]
  simp only [eulerSetRef]
  cases degree <;>
    simp [List.all_cons, decide_eq_true_eq, ite_eq_right_iff, and_assoc]

theorem foldl_build_length {α : Type} (g : List Nat → α → Nat) :
    ∀ (l : List α) (acc : List Nat),
      (l.foldl (fun a b => a ++ [g a b]) acc).length = acc.length + l.length
  | [], acc => by simp
  | b :: l, acc => by
    simp [foldl_build_length g l (acc ++ [g acc b])]
    omega

theorem buildTable_length {α : Type} (g : List Nat → α → Nat) (bs : List α) :
    (buildTable g bs).length = bs.length := by
  simpa using foldl_build_length g bs []

theorem foldl_build_prefix {α : Type} (g : List Nat → α → Nat) :
    ∀ (l : List α) (acc : List Nat),
      ∃ r, l.foldl (fun a b => a ++ [g a b]) acc = acc ++ r
  | [], acc => ⟨[], by simp⟩
  | b :: l, acc => by
    obtain ⟨r, hr⟩ := foldl_build_prefix g l (acc ++ [g acc b])
    exact ⟨[g acc b] ++ r, by simp [hr]⟩

theorem buildTable_getD {α : Type} (g : List Nat → α → Nat) (bs : List α)
    (i : Nat) (h : i < bs.length) (d : Nat) :
    (buildTable g bs).getD i d =
      g (buildTable g (bs.take i)) (bs.get ⟨i, h⟩) := by
  have hAlen : (buildTable g (bs.take i)).length = i := by
    rw [buildTable_length]
    simp [List.length_take]
    omega
  have h1 : buildTable g bs =
      (bs.drop i).foldl (fun a b => a ++ [g a b]) (buildTable g (bs.take i)) := by
    conv_lhs => rw [show bs = bs.take i ++ bs.drop i from (List.take_append_drop i bs).symm]
    unfold buildTable
    rw [List.foldl_append]
  have hdrop : bs.drop i = bs.get ⟨i, h⟩ :: bs.drop (i + 1) := by
    rw [List.drop_eq_getElem_cons h]
    simp [List.get_eq_getElem]
  obtain ⟨r, hr⟩ := foldl_build_prefix g (bs.drop (i + 1))
    (buildTable g (bs.take i) ++ [g (buildTable g (bs.take i)) (bs.get ⟨i, h⟩)])
  have h2 : buildTable g bs =
      (buildTable g (bs.take i) ++ [g (buildTable g (bs.take i)) (bs.get ⟨i, h⟩)]) ++ r := by
    rw [h1, hdrop, List.foldl_cons, hr]
  rw [h2, List.getD_append _ _ d i (by simp [hAlen])]
  rw [List.getD_eq_getElem?_getD, List.getElem?_append_right (by omega), hAlen]
  simp

theorem buildTable_prefix_getD {α : Type} (g : List Nat → α → Nat) (bs : List α)
    (i j : Nat) (hji : j < i) (h : i ≤ bs.length) (d : Nat) :
    (buildTable g (bs.take i)).getD j d = (buildTable g bs).getD j d := by
  have h1 : buildTable g bs =
      (bs.drop i).foldl (fun a b => a ++ [g a b]) (buildTable g (bs.take i)) := by
    conv_lhs => rw [show bs = bs.take i ++ bs.drop i from (List.take_append_drop i bs).symm]
    unfold buildTable
    rw [List.foldl_append]
  obtain ⟨r, hr⟩ := foldl_build_prefix g (bs.drop i) (buildTable g (bs.take i))
  rw [h1, hr, List.getD_append]
  rw [buildTable_length]
  simp [List.length_take]
  omega

/-- C7: in a compiled model `weldid` is the body's own id when the body has
at least one joint and the parent's `weldid` otherwise, and `body_rootid`
is the body's own index when the body is the world or a direct child of the
world and the parent's `rootid` otherwise. -/
theorem C7_weldid_rootid (bs : List CBody)
    (hpar : ∀ i (h : i < bs.length), 0 < i → (bs.get ⟨i, h⟩).parentid < i)
    (h0 : ∀ (hh : 0 < bs.length), (bs.get ⟨0, hh⟩).parentid = 0) :
    ∀ i (h : i < bs.length),
      (¬(bs.get ⟨i, h⟩).joints.isEmpty = true → (weldids bs).getD i 0 = i) ∧
      ((bs.get ⟨i, h⟩).joints.isEmpty = true →
        (weldids bs).getD i 0 = (weldids bs).getD (bs.get ⟨i, h⟩).parentid 0) ∧
      (i = 0 ∨ (bs.get ⟨i, h⟩).parentid = 0 → (rootids bs).getD i 0 = i) ∧
      (i ≠ 0 → (bs.get ⟨i, h⟩).parentid ≠ 0 →
        (rootids bs).getD i 0 = (rootids bs).getD (bs.get ⟨i, h⟩).parentid 0) := by
  intro i h
  have hwAlen : (buildTable weldStep (bs.take i)).length = i := by
    rw [buildTable_length]
    simp [List.length_take]
    omega
  have hrAlen : (buildTable rootStep (bs.take i)).length = i := by
    rw [buildTable_length]
    simp [List.length_take]
    omega
  have hw := buildTable_getD weldStep bs i h 0
  have hr := buildTable_getD rootStep bs i h 0
  refine ⟨?_, ?_, ?_, ?_⟩
  · intro hj
    show (buildTable weldStep bs).getD i 0 = i
    rw [hw]
    simp only [weldStep, if_neg hj]
    exact hwAlen
  · intro hj
    by_cases hi : i = 0
    · subst hi
      rw [h0 h]
    · have hp := hpar i h (by omega)
      show (buildTable weldStep bs).getD i 0 =
        (buildTable weldStep bs).getD (bs.get ⟨i, h⟩).parentid 0
      rw [hw]
      simp only [weldStep, if_pos hj]
      exact buildTable_prefix_getD weldStep bs i (bs.get ⟨i, h⟩).parentid hp
        (le_of_lt h) 0
  · intro hcond
    show (buildTable rootStep bs).getD i 0 = i
    rw [hr]
    simp only [rootStep]
    rw [if_pos]
    · exact hrAlen
    · rcases hcond with hc | hc
      · exact Or.inl (by omega)
      · exact Or.inr hc
  · intro hi hp
    have hplt := hpar i h (by omega)
    show (buildTable rootStep bs).getD i 0 =
      (buildTable rootStep bs).getD (bs.get ⟨i, h⟩).parentid 0
    rw [hr]
    simp only [rootStep]
    rw [if_neg]
    · exact buildTable_prefix_getD rootStep bs i (bs.get ⟨i, h⟩).parentid hplt
        (le_of_lt h) 0
    · rintro (hc | hc)
      · omega
      · exact hp hc

theorem C7_weldid_rootid_witness :
    (weldids [⟨0, []⟩, ⟨0, [JointType.hinge]⟩, ⟨1, []⟩]).getD 2 0 =
      (weldids [⟨0, []⟩, ⟨0, [JointType.hinge]⟩, ⟨1, []⟩]).getD 1 0 ∧
    (rootids [⟨0, []⟩, ⟨0, [JointType.hinge]⟩, ⟨1, []⟩]).getD 1 0 = 1 := by
  have hpar : ∀ i (h : i < ([⟨0, []⟩, ⟨0, [JointType.hinge]⟩,
      (⟨1, []⟩ : CBody)] : List CBody).length), 0 < i →
      (([⟨0, []⟩, ⟨0, [JointType.hinge]⟩, (⟨1, []⟩ : CBody)] : List CBody).get
        ⟨i, h⟩).parentid < i := by
    intro i h hpos
    have h3 : i < 3 := by simpa using h
    interval_cases i
    · exact (by decide : (0 : Nat) < 1)
    · exact (by decide : (1 : Nat) < 2)
  have h0 : ∀ (hh : 0 < ([⟨0, []⟩, ⟨0, [JointType.hinge]⟩,
      (⟨1, []⟩ : CBody)] : List CBody).length),
      (([⟨0, []⟩, ⟨0, [JointType.hinge]⟩, (⟨1, []⟩ : CBody)] : List CBody).get
        ⟨0, hh⟩).parentid = 0 := by
    intro hh
    exact rfl
  have hmain := C7_weldid_rootid
    [⟨0, []⟩, ⟨0, [JointType.hinge]⟩, ⟨1, []⟩] hpar h0
  exact ⟨(hmain 2 (by decide)).2.1 (by decide),
    (hmain 1 (by decide)).2.2.1 (Or.inr (by decide))⟩

theorem pushDofs_len : ∀ (n : Nat) (ld : Int) (dp : List Int),
    (pushDofs n ld dp).2.length = dp.length + n
  | 0, _, _ => by simp [pushDofs]
  | n + 1, ld, dp => by
    simp [pushDofs, pushDofs_len n _ (dp ++ [ld])]
    omega

theorem bodyDofs_len : ∀ (joints : List JointType) (ld : Int) (dp : List Int),
    (bodyDofs joints ld dp).2.length = dp.length + (joints.map nVEL).sum
  | [], _, _ => by simp [bodyDofs]
  | t :: js, ld, dp => by
    have h1 : bodyDofs (t :: js) ld dp =
        bodyDofs js (pushDofs (nVEL t) ld dp).1 (pushDofs (nVEL t) ld dp).2 := by
      simp [bodyDofs, List.foldl_cons]
    rw [h1, bodyDofs_len js _ _, pushDofs_len]
    simp
    omega

theorem pushDofs_inv : ∀ (n : Nat) (ld : Int) (dp : List Int),
    (∀ d : Nat, dp.getD d (-1) < (d : Int)) → ld < (dp.length : Int) →
    (∀ d : Nat, (pushDofs n ld dp).2.getD d (-1) < (d : Int)) ∧
      (pushDofs n ld dp).1 < ((pushDofs n ld dp).2.length : Int)
  | 0, ld, dp => fun hdp hld => ⟨hdp, hld⟩
  | n + 1, ld, dp => by
    intro hdp hld
    have hnew : ∀ d : Nat, (dp ++ [ld]).getD d (-1) < (d : Int) := by
      intro d
      rcases Nat.lt_trichotomy d dp.length with hd | hd | hd
      · rw [List.getD_append _ _ _ _ hd]
        exact hdp d
      · subst hd
        rw [List.getD_eq_getElem?_getD, List.getElem?_append_right (le_refl _)]
        simpa using hld
      · rw [List.getD_eq_default]
        · omega
        · simp
          omega
    have hld2 : (dp.length : Int) < ((dp ++ [ld]).length : Int) := by
      simp
    exact pushDofs_inv n (dp.length : Int) (dp ++ [ld]) hnew hld2

theorem bodyDofs_inv : ∀ (joints : List JointType) (ld : Int) (dp : List Int),
    (∀ d : Nat, dp.getD d (-1) < (d : Int)) → ld < (dp.length : Int) →
    (∀ d : Nat, (bodyDofs joints ld dp).2.getD d (-1) < (d : Int)) ∧
      (bodyDofs joints ld dp).1 < ((bodyDofs joints ld dp).2.length : Int)
  | [], ld, dp => fun hdp hld => ⟨hdp, hld⟩
  | t :: js, ld, dp => by
    intro hdp hld
    have h1 : bodyDofs (t :: js) ld dp =
        bodyDofs js (pushDofs (nVEL t) ld dp).1 (pushDofs (nVEL t) ld dp).2 := by
      simp [bodyDofs, List.foldl_cons]
    obtain ⟨hdp2, hld2⟩ := pushDofs_inv (nVEL t) ld dp hdp hld
    rw [h1]
    exact bodyDofs_inv js _ _ hdp2 hld2

theorem treeDofs_inv : ∀ (bs : List CBody) (st : List Int × List Int),
    (∀ x ∈ st.1, x < (st.2.length : Int)) →
    (∀ d : Nat, st.2.getD d (-1) < (d : Int)) →
    ∀ d : Nat, ((bs.foldl treeDofsStep st).2).getD d (-1) < (d : Int)
  | [], st => fun _ hdp => hdp
  | b :: bs, st => by
    intro hlds hdp
    have hld0 : st.1.getD b.parentid (-1) < (st.2.length : Int) := by
      rcases Nat.lt_or_ge b.parentid st.1.length with hp | hp
      · rw [List.getD_eq_getElem?_getD, List.getElem?_eq_getElem hp, Option.getD_some]
        exact hlds _ (List.getElem_mem hp)
      · rw [List.getD_eq_default _ _ hp]
        omega
    obtain ⟨hdp2, hld2⟩ :=
      bodyDofs_inv b.joints (st.1.getD b.parentid (-1)) st.2 hdp hld0
    have hmono : st.2.length ≤
        (bodyDofs b.joints (st.1.getD b.parentid (-1)) st.2).2.length := by
      rw [bodyDofs_len]
      omega
    have h1 : ∀ x ∈ (treeDofsStep st b).1, x < ((treeDofsStep st b).2.length : Int) := by
      show ∀ x ∈ st.1 ++ [(bodyDofs b.joints (st.1.getD b.parentid (-1)) st.2).1],
        x < (((bodyDofs b.joints (st.1.getD b.parentid (-1)) st.2).2).length : Int)
      intro x hx
      rcases List.mem_append.mp hx with hx | hx
      · have hx2 := hlds x hx
        have hx3 : (st.2.length : Int) ≤
            ((bodyDofs b.joints (st.1.getD b.parentid (-1)) st.2).2.length : Int) :=
          Int.ofNat_le.mpr hmono
        omega
      · rw [List.mem_singleton] at hx
        subst hx
        exact hld2
    have h2 : ∀ d : Nat, (treeDofsStep st b).2.getD d (-1) < (d : Int) := fun d => hdp2 d
    exact treeDofs_inv bs (treeDofsStep st b) h1 h2

theorem dofParent_inv (bs : List CBody) :
    ∀ d : Nat, (dofParent bs).getD d (-1) < (d : Int) := by
  refine treeDofs_inv bs ([], []) (by simp) ?_
  intro d
  rw [List.getD_eq_default _ _ (by simp)]
  omega

theorem chainCount_neg (dp : List Int) :
    ∀ (fuel : Nat) (j : Int), j < 0 → chainCount dp fuel j = 0
  | 0, _, _ => rfl
  | fuel + 1, j, h => by simp [chainCount, h]

theorem chainCount_eq_depth (dp : List Int)
    (hdp : ∀ d : Nat, dp.getD d (-1) < (d : Int)) :
    ∀ (fuel j : Nat), j < fuel →
      chainCount dp fuel (j : Int) = 1 + dofDepthFuel dp fuel j := by
  intro fuel
  induction fuel with
  | zero => intro j h; omega
  | succ f ih =>
    intro j hj
    have hnot : ¬((j : Int) < 0) := by omega
    rw [show chainCount dp (f + 1) (j : Int) = if (j : Int) < 0 then 0
        else 1 + chainCount dp f (dp.getD (j : Int).toNat (-1)) from rfl,
      if_neg hnot, Int.toNat_natCast]
    have hp := hdp j
    by_cases hneg : dp.getD j (-1) < 0
    · rw [chainCount_neg dp f _ hneg,
        show dofDepthFuel dp (f + 1) j = if dp.getD j (-1) < 0 then 0
          else 1 + dofDepthFuel dp f (dp.getD j (-1)).toNat from rfl,
        if_pos hneg]
    · push_neg at hneg
      have hcast : ((dp.getD j (-1)).toNat : Int) = dp.getD j (-1) :=
        Int.toNat_of_nonneg hneg
      have hjf : (dp.getD j (-1)).toNat < f := by omega
      rw [show dofDepthFuel dp (f + 1) j = if dp.getD j (-1) < 0 then 0
          else 1 + dofDepthFuel dp f (dp.getD j (-1)).toNat from rfl,
        if_neg (by omega),
        show dp.getD j (-1) = ((dp.getD j (-1)).toNat : Int) from hcast.symm,
        ih _ hjf, Int.toNat_natCast]

theorem treeDofs_len : ∀ (bs : List CBody) (st : List Int × List Int),
    ((bs.foldl treeDofsStep st).2).length =
      st.2.length + (bs.map (fun b => (b.joints.map nVEL).sum)).sum
  | [], st => by simp
  | b :: bs, st => by
    have hstep : (treeDofsStep st b).2 =
        (bodyDofs b.joints (st.1.getD b.parentid (-1)) st.2).2 := rfl
    rw [List.foldl_cons, treeDofs_len bs (treeDofsStep st b), hstep, bodyDofs_len]
    simp
    omega

theorem modelNv_eq (bs : List CBody) :
    modelNv bs = (bs.map (fun b => (b.joints.map nVEL).sum)).sum := by
  have h1 : modelNv bs = ((modelJoints bs).map nVEL).sum := by
    simpa [modelNv] using foldl_add_map nVEL (modelJoints bs) 0
  rw [h1, modelJoints, List.map_flatten, List.sum_flatten, List.map_map, List.map_map]
  rfl

theorem dofParent_length (bs : List CBody) :
    (dofParent bs).length = modelNv bs := by
  rw [modelNv_eq, dofParent, treeDofs_len bs ([], [])]
  simp

/-- C1: in a compiled model the sum over bodies of `dofnum` equals `nv`, the
sum over joints of `nPOS[type]` equals `nq` with `nPOS = (7,4,1,1)` and
`nVEL = (6,3,1,1)` for (free, ball, hinge, slide), `nM` equals the sum over
all dofs of one plus the dof's depth in the dof-parent tree, and
`nD = 2*nM - nv`. -/
theorem C1_size_invariants (bs : List CBody) :
    modelNq bs = ((modelJoints bs).map nPOS).sum ∧
    modelNv bs = ((modelJoints bs).map nVEL).sum ∧
    nPOS .free = 7 ∧ nPOS .ball = 4 ∧ nPOS .hinge = 1 ∧ nPOS .slide = 1 ∧
    nVEL .free = 6 ∧ nVEL .ball = 3 ∧ nVEL .hinge = 1 ∧ nVEL .slide = 1 ∧
    (bs.map (fun b => bodyDofnum b.joints)).sum = modelNv bs ∧
    (dofParent bs).length = modelNv bs ∧
    modelNM bs = ((List.range (modelNv bs)).map
      (fun i => 1 + dofDepth (dofParent bs) i)).sum ∧
    modelND bs = 2 * (modelNM bs : Int) - (modelNv bs : Int) := by
  refine ⟨?_, ?_, rfl, rfl, rfl, rfl, rfl, rfl, rfl, rfl, ?_,
    dofParent_length bs, ?_, rfl⟩
  · simpa [modelNq] using foldl_add_map nPOS (modelJoints bs) 0
  · simpa [modelNv] using foldl_add_map nVEL (modelJoints bs) 0
  · have hb : ∀ b : CBody, bodyDofnum b.joints = (b.joints.map nVEL).sum := by
      intro b
      have h1 : bodyDofnum b.joints = (b.joints.map mjCJoint.CompileDofReturn).sum := by
        simpa [bodyDofnum] using foldl_add_map mjCJoint.CompileDofReturn b.joints 0
      rw [h1]
      have h2 : b.joints.map mjCJoint.CompileDofReturn = b.joints.map nVEL :=
        List.map_congr_left (fun t _ => by cases t <;> rfl)
      rw [h2]
    rw [List.map_congr_left (fun b _ => hb b), ← modelNv_eq]
  · have hdp := dofParent_inv bs
    have h1 : modelNM bs = ((List.range (dofParent bs).length).map
        (fun i => chainCount (dofParent bs) (i + 1) (i : Int))).sum := by
      simpa [modelNM] using
        foldl_add_map (fun i => chainCount (dofParent bs) (i + 1) (i : Int))
          (List.range (dofParent bs).length) 0
    rw [h1, dofParent_length bs]
    apply congrArg List.sum
    apply List.map_congr_left
    intro i _
    rw [chainCount_eq_depth (dofParent bs) hdp (i + 1) i (by omega)]
    rfl
